import Mathlib

/-!
# Verification of the ttyd history daemon

Shallow embedding of `ttyd.c`, a terminal helper daemon that keeps, for
every (process id, terminal device) pair, a chain of submitted command
lines plus a navigation cursor, serves step-older / step-newer recall
requests, and reaps sessions whose owning process has died.

Modelling choices, each traced to the source:

* The doubly linked chain of `struct line` nodes is represented as a
  `List String` ordered **newest first**: the head of the list is the
  node pointed to by `h->lines` (the tail / newest line of the chain),
  and following the list toward its end corresponds to following the
  `prev` pointers toward older lines.  A fresh line is pushed with
  `cons`, exactly as `TH_HIST_KEEP` makes the new node the new
  `h->lines` with `prev` pointing at the old one.
* The cursor `h->current` is an `Option Nat`: `none` is the NULL
  cursor (the "bottom" of the history), `some i` points at the node
  reached from `h->lines` by following `prev` `i` times.  So `some 0`
  is the newest entry, larger indices are older entries, the oldest
  entry has index `lines.length - 1`.
* The list `struct hist *hists` is a `List Hist`; `findhist` pushes a
  newly created session at the front, as the C does.
* The `kill (pid, 0)` liveness probe of `cleanup` is abstracted as a
  function `Nat → LiveStatus`: `alive` models `kill` returning 0,
  `dead` models failure with `errno == ESRCH`, `inconclusive` models
  failure with any other `errno` (e.g. `EPERM`).
-/

namespace Ttyd

/-- A history session for one (pid, dev) pair: `lines` is the chain of
stored texts, newest first (`struct hist`'s `lines`/`struct line`
chain), `current` the cursor (`struct hist`'s `current`, `none` for
NULL). -/
structure Session where
  lines : List String
  current : Option Nat
deriving DecidableEq, Repr

/-- The session `findhist` creates: `h->lines = NULL; h->current = NULL`. -/
def emptySession : Session := ⟨[], none⟩

/-- The request kinds of the `th_request` field: `TH_HIST_KEEP`,
`TH_HIST_PREV`, `TH_HIST_NEXT`, and any other (unknown) request code. -/
inductive Request where
  | record (text : String)
  | stepOlder
  | stepNewer
  | unknown (code : Nat)
deriving DecidableEq, Repr

/-- What `handlehist` does to the terminal: deliver a stored line via
`TIOCSINPUT` (`deliverText`), deliver the empty line when stepping past
the newest entry (`deliverEmpty`), ring the bell (`signalAlert`),
report an unknown request code (`invalidRequest`), or do nothing
(`silent`). -/
inductive NavResult where
  | deliverText (text : String)
  | deliverEmpty
  | signalAlert
  | invalidRequest
  | silent
deriving DecidableEq, Repr

/-- `handlehist` from ttyd.c, per request kind:

* `TH_HIST_KEEP`: if `th->th_len` is nonzero a new node holding the
  text becomes the new chain head (`l->prev = h->lines; h->lines = l`),
  then `h->current = NULL` unconditionally; no terminal output.
* `TH_HIST_PREV`: NULL cursor selects `h->lines` and delivers it, or
  beeps if the chain is empty; a set cursor moves to `current->prev`
  and delivers it if that exists, else does nothing (the beep on that
  branch is compiled out with `#if 0`).
* `TH_HIST_NEXT`: NULL cursor beeps; a set cursor moves to
  `current->next`, delivering that node's text, or the empty string if
  the node was the chain head (so the new cursor is NULL).
* any other request code: report it; the session is untouched. -/
def handlehist : Request → Session → Session × NavResult
  | .record text, h =>
    if text.length ≠ 0 then
      ({ lines := text :: h.lines, current := none }, .silent)
    else
      ({ h with current := none }, .silent)
  | .stepOlder, h =>
    match h.current with
    | none =>
      match h.lines with
      | [] => (h, .signalAlert)
      | l :: _ => ({ h with current := some 0 }, .deliverText l)
    | some i =>
      if i + 1 < h.lines.length then
        ({ h with current := some (i + 1) }, .deliverText (h.lines.getD (i + 1) ""))
      else
        (h, .silent)
  | .stepNewer, h =>
    match h.current with
    | none => (h, .signalAlert)
    | some 0 => ({ h with current := none }, .deliverEmpty)
    | some (j + 1) => ({ h with current := some j }, .deliverText (h.lines.getD j ""))
  | .unknown _, h => (h, .invalidRequest)

/-- Outcome of the `kill (pid, 0)` probe in `cleanup`: success
(`alive`), failure with `ESRCH` (`dead`), or failure with any other
errno (`inconclusive`). -/
inductive LiveStatus where
  | alive
  | dead
  | inconclusive
deriving DecidableEq, Repr

/-- One element of the `struct hist` list: key fields and session state. -/
structure Hist where
  pid : Nat
  dev : Nat
  session : Session
deriving DecidableEq, Repr

/-- Whether the `hists` list already holds an entry for this key
(the search loop at the top of `findhist`). -/
def hasKey (store : List Hist) (pid dev : Nat) : Bool :=
  store.any fun h => h.pid == pid && h.dev == dev

/-- The session of the first entry matching the key (`findhist`'s
search); `emptySession` if none, matching the state of a freshly
allocated session. -/
def getSession : List Hist → Nat → Nat → Session
  | [], _, _ => emptySession
  | h :: rest, pid, dev =>
    if h.pid == pid && h.dev == dev then h.session else getSession rest pid dev

/-- Write back the session of the first entry matching the key (the
effect of `handlehist` mutating the session `findhist` returned). -/
def setSession : List Hist → Nat → Nat → Session → List Hist
  | [], _, _, _ => []
  | h :: rest, pid, dev, s =>
    if h.pid == pid && h.dev == dev then ⟨pid, dev, s⟩ :: rest
    else h :: setSession rest pid dev s

/-- `findhist` from ttyd.c: find the entry for the key, or push a fresh
empty session at the front of the list (`h->next = *hists; *hists = h`). -/
def findhist (store : List Hist) (pid dev : Nat) : List Hist :=
  if hasKey store pid dev then store else ⟨pid, dev, emptySession⟩ :: store

/-- `cleanup` from ttyd.c: walk the `hists` list; unlink and free every
entry whose `kill (pid, 0)` probe fails with `ESRCH`, keep every other
entry in place. -/
def cleanup (probe : Nat → LiveStatus) : List Hist → List Hist
  | [] => []
  | h :: rest =>
    if probe h.pid = .dead then cleanup probe rest else h :: cleanup probe rest

/-- The per-request dispatch of `main`'s loop body: if the request's
tty device is unknown, report and drop it; otherwise `findhist` (find
or create the session), `handlehist` on that session, then `cleanup`. -/
def processRequest (ttys : List Nat) (probe : Nat → LiveStatus)
    (store : List Hist) (pid dev : Nat) (req : Request) : List Hist :=
  if dev ∈ ttys then
    let store1 := findhist store pid dev
    let s := (handlehist req (getSession store1 pid dev)).1
    cleanup probe (setSession store1 pid dev s)
  else
    store

/-- The cursor invariant: a set cursor points at an entry of the chain. -/
def inv (s : Session) : Prop :=
  match s.current with
  | none => True
  | some i => i < s.lines.length

instance (s : Session) : Decidable (inv s) := by
  unfold inv
  cases s.current with
  | none => exact inferInstanceAs (Decidable True)
  | some i => exact inferInstanceAs (Decidable (i < s.lines.length))

/-- Fold a list of record requests over a session (the state after a
sequence of `TH_HIST_KEEP` requests). -/
def recordAll (texts : List String) (s : Session) : Session :=
  texts.foldl (fun s t => (handlehist (.record t) s).1) s

/-- Apply `TH_HIST_PREV` `n` times, collecting the results in order. -/
def stepOlderRun : Nat → Session → Session × List NavResult
  | 0, s => (s, [])
  | n + 1, s =>
    let p := handlehist .stepOlder s
    let q := stepOlderRun n p.1
    (q.1, p.2 :: q.2)

/-! ## Helper lemmas (shared by several claims) -/

/-- Unknown request codes leave the session alone (helper). -/
theorem handlehist_unknown_eq (c : Nat) (s : Session) :
    handlehist (.unknown c) s = (s, .invalidRequest) := rfl

/-- Writing back the session that was just read is a no-op. -/
theorem setSession_getSession (store : List Hist) (pid dev : Nat) :
    setSession store pid dev (getSession store pid dev) = store := by
  induction store with
  | nil => rfl
  | cons h rest ih =>
    obtain ⟨p, d, sess⟩ := h
    by_cases hk : (p == pid && d == dev) = true
    · have hp : p = pid := by
        have := (Bool.and_eq_true _ _).mp hk
        simpa using this.1
      have hd : d = dev := by
        have := (Bool.and_eq_true _ _).mp hk
        simpa using this.2
      subst hp; subst hd
      simp [getSession, setSession]
    · simp [getSession, setSession, hk, ih]

/-- If no entry's pid probes dead, `cleanup` keeps the list intact. -/
theorem cleanup_id_of_no_dead (probe : Nat → LiveStatus) (store : List Hist)
    (h : ∀ g ∈ store, probe g.pid ≠ LiveStatus.dead) :
    cleanup probe store = store := by
  induction store with
  | nil => rfl
  | cons g rest ih =>
    have hg : probe g.pid ≠ LiveStatus.dead := h g (List.mem_cons_self g rest)
    simp only [cleanup, if_neg hg]
    rw [ih fun x hx => h x (List.mem_cons_of_mem g hx)]

/-! ## Claims -/

/-- C3: for every session and every unrecognized request code, the
Navigator yields `invalidRequest` and the targeted session — its chain
and its cursor — is exactly what it was before the call. -/
theorem navigator_unknown_invalid (c : Nat) (s : Session) :
    handlehist (.unknown c) s = (s, .invalidRequest) := by
  rfl

/-- C10: `StepOlder` and `StepNewer` never touch the entry chain —
same entries, same texts, same order; only the cursor may change. -/
theorem steps_preserve_chain (s : Session) :
    (handlehist .stepOlder s).1.lines = s.lines ∧
    (handlehist .stepNewer s).1.lines = s.lines := by
  obtain ⟨lines, current⟩ := s
  cases current with
  | none =>
    cases lines <;> simp [handlehist]
  | some i =>
    cases i with
    | zero =>
      constructor
      · simp only [handlehist]
        split <;> rfl
      · rfl
    | succ j =>
      constructor
      · simp only [handlehist]
        split <;> rfl
      · rfl

/-- C7: from any cursor state, `Record(text)` with non-empty text
pushes exactly one new entry holding `text` at the newest end of the
chain, keeps every previously stored entry as it was, and resets the
cursor to Bottom; with empty text it appends nothing and still resets
the cursor to Bottom; neither case delivers anything. -/
theorem record_spec (s : Session) (text : String) :
    (text ≠ "" → handlehist (.record text) s =
      ({ lines := text :: s.lines, current := none }, .silent)) ∧
    (text = "" → handlehist (.record text) s =
      ({ lines := s.lines, current := none }, .silent)) := by
  constructor
  · intro hne
    have hlen : text.length ≠ 0 := by
      intro h
      apply hne
      cases text with
      | mk data =>
        simp [String.length] at h
        simp [h]
    simp [handlehist, hlen]
  · intro he
    subst he
    simp [handlehist]

/-- C7 witness: recording "ls" on a session browsing at an entry. -/
theorem record_spec_witness :
    handlehist (.record "ls") ⟨["a"], some 0⟩ =
      (⟨["ls", "a"], none⟩, .silent) :=
  (record_spec ⟨["a"], some 0⟩ "ls").1 (by decide)

/-- C4: `StepOlder` case analysis.  At Bottom with a non-empty chain it
selects and delivers the newest entry; at Bottom with an empty chain it
alerts and stays at Bottom; on an entry with an older neighbor it moves
there and delivers its text; on the oldest entry it changes nothing and
neither delivers nor alerts. -/
theorem stepOlder_cases (s : Session) (hw : inv s) :
    (s.current = none → s.lines = [] →
      handlehist .stepOlder s = (s, .signalAlert)) ∧
    (∀ l rest, s.current = none → s.lines = l :: rest →
      handlehist .stepOlder s = ({ s with current := some 0 }, .deliverText l)) ∧
    (∀ i, s.current = some i → i + 1 < s.lines.length →
      handlehist .stepOlder s =
        ({ s with current := some (i + 1) }, .deliverText (s.lines.getD (i + 1) ""))) ∧
    (∀ i, s.current = some i → i = s.lines.length - 1 →
      handlehist .stepOlder s = (s, .silent)) := by
  refine ⟨fun hc hl => ?_, fun l rest hc hl => ?_, fun i hc hi => ?_,
    fun i hc hi => ?_⟩
  · obtain ⟨lines, current⟩ := s
    simp only at hc hl
    subst hc; subst hl
    rfl
  · obtain ⟨lines, current⟩ := s
    simp only at hc hl
    subst hc; subst hl
    rfl
  · obtain ⟨lines, current⟩ := s
    simp only at hc
    subst hc
    simp [handlehist, hi]
  · obtain ⟨lines, current⟩ := s
    simp only at hc hi
    subst hc
    have : ¬ (i + 1 < lines.length) := by omega
    simp [handlehist, this]

/-- C4 witness: on the session holding "b" (newest) and "a" (oldest)
with the cursor on "b", `StepOlder` moves to "a" and delivers it. -/
theorem stepOlder_cases_witness :
    inv (⟨["b", "a"], some 0⟩ : Session) ∧
    handlehist .stepOlder ⟨["b", "a"], some 0⟩ =
      (⟨["b", "a"], some 1⟩, .deliverText "a") := by
  refine ⟨by decide, ?_⟩
  have h := (stepOlder_cases ⟨["b", "a"], some 0⟩ (by decide)).2.2.1 0 rfl
    (by decide)
  simpa using h

/-- C5: `StepNewer` case analysis.  At Bottom it alerts and stays at
Bottom; on an entry with a newer neighbor it moves there and delivers
its text; on the newest entry it moves to Bottom and delivers the
empty line. -/
theorem stepNewer_cases (s : Session) (hw : inv s) :
    (s.current = none → handlehist .stepNewer s = (s, .signalAlert)) ∧
    (∀ j, s.current = some (j + 1) →
      handlehist .stepNewer s =
        ({ s with current := some j }, .deliverText (s.lines.getD j ""))) ∧
    (s.current = some 0 →
      handlehist .stepNewer s = ({ s with current := none }, .deliverEmpty)) := by
  refine ⟨fun hc => ?_, fun j hc => ?_, fun hc => ?_⟩
  · obtain ⟨lines, current⟩ := s
    simp only at hc
    subst hc
    rfl
  · obtain ⟨lines, current⟩ := s
    simp only at hc
    subst hc
    rfl
  · obtain ⟨lines, current⟩ := s
    simp only at hc
    subst hc
    rfl

/-- C5 witness: on the session holding "b" (newest) and "a" (oldest)
with the cursor on "a", `StepNewer` moves to "b" and delivers it. -/
theorem stepNewer_cases_witness :
    inv (⟨["b", "a"], some 1⟩ : Session) ∧
    handlehist .stepNewer ⟨["b", "a"], some 1⟩ =
      (⟨["b", "a"], some 0⟩, .deliverText "b") := by
  refine ⟨by decide, ?_⟩
  have h := (stepNewer_cases ⟨["b", "a"], some 1⟩ (by decide)).2.1 0 rfl
  simpa using h

/-- C6 counterexample: on the empty-chain session at Bottom, applying
`StepOlder` then `StepNewer` yields `signalAlert`, not `deliverEmpty`,
so the round trip as claimed fails for sessions with an empty chain. -/
theorem roundTrip_empty_chain_alerts :
    (⟨[], none⟩ : Session).current = none ∧
    (handlehist .stepNewer (handlehist .stepOlder ⟨[], none⟩).1).2 =
      .signalAlert ∧
    (handlehist .stepNewer (handlehist .stepOlder ⟨[], none⟩).1).2 ≠
      .deliverEmpty := by
  decide

/-- C6 amended: for every session with a **non-empty** chain whose
cursor is at Bottom, `StepOlder` then `StepNewer` returns the cursor to
Bottom and the second step yields `deliverEmpty`. -/
theorem roundTrip_nonempty (s : Session) (hb : s.current = none)
    (hne : s.lines ≠ []) :
    (handlehist .stepNewer (handlehist .stepOlder s).1).1.current = none ∧
    (handlehist .stepNewer (handlehist .stepOlder s).1).2 = .deliverEmpty := by
  obtain ⟨lines, current⟩ := s
  simp only at hb
  subst hb
  cases lines with
  | nil => exact absurd rfl hne
  | cons l rest => simp [handlehist]

/-- C6 amended witness: the round trip on a one-entry session. -/
theorem roundTrip_nonempty_witness :
    (⟨["a"], none⟩ : Session).current = none ∧ (["a"] : List String) ≠ [] ∧
    (handlehist .stepNewer (handlehist .stepOlder ⟨["a"], none⟩).1).1.current
      = none ∧
    (handlehist .stepNewer (handlehist .stepOlder ⟨["a"], none⟩).1).2 =
      .deliverEmpty := by
  refine ⟨rfl, by decide, ?_, ?_⟩
  · exact (roundTrip_nonempty ⟨["a"], none⟩ rfl (by decide)).1
  · exact (roundTrip_nonempty ⟨["a"], none⟩ rfl (by decide)).2

/-- Every entry surviving `cleanup` was in the original list (helper). -/
theorem mem_cleanup (probe : Nat → LiveStatus) (store : List Hist) (g : Hist) :
    g ∈ cleanup probe store → g ∈ store := by
  induction store with
  | nil =>
    intro hg
    simp [cleanup] at hg
  | cons x rest ih =>
    intro hg
    by_cases hx : probe x.pid = LiveStatus.dead
    · simp only [cleanup, if_pos hx] at hg
      exact List.mem_cons_of_mem x (ih hg)
    · simp only [cleanup, if_neg hx] at hg
      cases hg with
      | head => exact List.mem_cons_self g rest
      | tail _ h2 => exact List.mem_cons_of_mem x (ih h2)

/-- A non-empty string has nonzero length (helper). -/
theorem length_ne_zero_of_ne_empty (t : String) (h : t ≠ "") :
    t.length ≠ 0 := by
  intro h0
  apply h
  cases t with
  | mk data =>
    simp [String.length] at h0
    simp [h0]

/-- C8: one Reaper sweep removes exactly the entries whose probe is
conclusively `dead`, and keeps every other entry — session, chain and
cursor untouched, in the original order: the sweep is a filter. -/
theorem cleanup_removes_exactly_dead (probe : Nat → LiveStatus)
    (store : List Hist) :
    cleanup probe store =
      store.filter fun g => !(probe g.pid == LiveStatus.dead) := by
  induction store with
  | nil => rfl
  | cons g rest ih =>
    by_cases hg : probe g.pid = LiveStatus.dead
    · simp [cleanup, hg, ih]
    · simp [cleanup, hg, ih]

/-- C9: the cursor invariant (a set cursor indexes an entry of the
chain) is preserved by every request the Navigator handles — Record,
StepOlder, StepNewer and unknown codes — and by the Reaper sweep, which
touches no surviving session. -/
theorem cursor_invariant_preserved :
    (∀ (req : Request) (s : Session), inv s → inv (handlehist req s).1) ∧
    (∀ (probe : Nat → LiveStatus) (store : List Hist),
      (∀ g ∈ store, inv g.session) →
      ∀ g ∈ cleanup probe store, inv g.session) := by
  constructor
  · intro req s hs
    obtain ⟨lines, current⟩ := s
    cases req with
    | record text =>
      by_cases ht : text.length ≠ 0 <;> simp [handlehist, ht, inv]
    | stepOlder =>
      cases current with
      | none =>
        cases lines with
        | nil => exact hs
        | cons l rest => simp [handlehist, inv]
      | some i =>
        by_cases hi : i + 1 < lines.length
        · simp [handlehist, hi, inv]
        · simpa [handlehist, hi, inv] using hs
    | stepNewer =>
      cases current with
      | none => exact hs
      | some i =>
        cases i with
        | zero => simp [handlehist, inv]
        | succ j =>
          simp only [inv] at hs
          simp only [handlehist, inv]
          omega
    | unknown c => exact hs
  · intro probe store h g hg
    exact h g (mem_cleanup probe store g hg)

/-- C9 witness: stepping older from the bottom of a one-line chain
keeps the cursor on a chain entry. -/
theorem cursor_invariant_preserved_witness :
    inv (handlehist .stepOlder ⟨["a"], none⟩).1 :=
  cursor_invariant_preserved.1 .stepOlder ⟨["a"], none⟩ (by decide)

/-- C2 counterexample: a request with an unknown kind whose (pid, dev)
key has no session does mutate the store — `findhist` runs before the
request kind is examined, so an empty session is created and (its
process being alive) survives the sweep. -/
theorem unknown_request_creates_session :
    processRequest [5] (fun _ => LiveStatus.alive) [] 1 5 (.unknown 0) =
      [⟨1, 5, emptySession⟩] ∧
    processRequest [5] (fun _ => LiveStatus.alive) [] 1 5 (.unknown 0) ≠
      [] := by
  decide

/-- C2 amended: on a request with an unrecognized kind (and a known
device), no existing session is changed or removed as long as no stored
pid probes dead; the one store mutation is find-or-create itself: if
the key has a session the store is returned intact, otherwise exactly
one fresh empty session for that key is added at the front. -/
theorem unknown_request_store_effect (ttys : List Nat)
    (probe : Nat → LiveStatus) (store : List Hist) (pid dev c : Nat)
    (hdev : dev ∈ ttys)
    (halive : ∀ g ∈ findhist store pid dev, probe g.pid ≠ LiveStatus.dead) :
    processRequest ttys probe store pid dev (.unknown c) =
      if hasKey store pid dev then store
      else ⟨pid, dev, emptySession⟩ :: store := by
  have h1 : (handlehist (.unknown c)
      (getSession (findhist store pid dev) pid dev)).1 =
      getSession (findhist store pid dev) pid dev := rfl
  simp only [processRequest, if_pos hdev, h1, setSession_getSession]
  rw [cleanup_id_of_no_dead probe _ halive]
  rfl

/-- C2 amended witness: an unknown request on an empty store with a
live pid creates exactly the one empty session. -/
theorem unknown_request_store_effect_witness :
    (5 ∈ [5]) ∧
    processRequest [5] (fun _ => LiveStatus.alive) [] 1 5 (.unknown 3) =
      [⟨1, 5, emptySession⟩] := by
  refine ⟨by decide, ?_⟩
  have h := unknown_request_store_effect [5] (fun _ => LiveStatus.alive)
    [] 1 5 3 (by decide) (by decide)
  simpa [hasKey] using h

/-- Recording a list of non-empty texts pushes them, newest first, in
front of the existing chain and leaves the cursor at Bottom (helper). -/
theorem recordAll_cons_all (texts : List String) (L : List String)
    (hall : ∀ t ∈ texts, t ≠ "") :
    recordAll texts ⟨L, none⟩ = ⟨texts.reverse ++ L, none⟩ := by
  induction texts generalizing L with
  | nil => simp [recordAll]
  | cons t ts ih =>
    have ht : t.length ≠ 0 :=
      length_ne_zero_of_ne_empty t (hall t (List.mem_cons_self t ts))
    have step : (handlehist (.record t) ⟨L, none⟩).1 = ⟨t :: L, none⟩ := by
      simp [handlehist, ht]
    have : recordAll (t :: ts) ⟨L, none⟩ = recordAll ts ⟨t :: L, none⟩ := by
      simp [recordAll, List.foldl_cons, step]
    rw [this, ih (t :: L) fun x hx => hall x (List.mem_cons_of_mem t hx)]
    simp

/-- Stepping older `k` more times from the entry at depth `i` of a
chain of `i + k + 1` lines walks to the oldest entry, delivering the
remaining lines in chain order (helper). -/
theorem stepOlderRun_mid (k : Nat) (L : List String) (i : Nat)
    (h : i + k + 1 = L.length) :
    stepOlderRun k ⟨L, some i⟩ =
      (⟨L, some (i + k)⟩, (L.drop (i + 1)).map NavResult.deliverText) := by
  induction k generalizing i with
  | zero =>
    have hd : L.drop (i + 1) = [] := List.drop_eq_nil_of_le (by omega)
    simp [stepOlderRun, hd]
  | succ k ih =>
    have hi : i + 1 < L.length := by omega
    have hstep : handlehist .stepOlder ⟨L, some i⟩ =
        (⟨L, some (i + 1)⟩, .deliverText (L.getD (i + 1) "")) := by
      simp [handlehist, hi]
    have hrec := ih (i + 1) (by omega)
    have hdrop : L.drop (i + 1) = L.getD (i + 1) "" :: L.drop (i + 2) := by
      rw [List.getD_eq_getElem _ _ hi]
      exact List.drop_eq_getElem_cons hi
    simp only [stepOlderRun, hstep, hrec, hdrop, List.map_cons]
    have hik : i + (k + 1) = i + 1 + k := by omega
    have h2 : i + 1 + 1 = i + 2 := rfl
    rw [hik, h2]

/-- Stepping older `length` times from the bottom of a non-empty chain
delivers every line, newest first, and ends on the oldest (helper). -/
theorem stepOlderRun_from_bottom (L : List String) (hne : L ≠ []) :
    stepOlderRun L.length ⟨L, none⟩ =
      (⟨L, some (L.length - 1)⟩, L.map NavResult.deliverText) := by
  cases L with
  | nil => exact absurd rfl hne
  | cons l rest =>
    have hstep : handlehist .stepOlder ⟨l :: rest, none⟩ =
        (⟨l :: rest, some 0⟩, .deliverText l) := rfl
    have hrec := stepOlderRun_mid rest.length (l :: rest) 0 (by simp)
    simp only [List.length_cons, stepOlderRun, hstep, hrec]
    simp

/-- C1: on a fresh session, after recording the non-empty lines L1 …
Ln in order, n StepOlder requests deliver Ln, …, L1 — the recorded
lines newest first — and the cursor ends on the oldest entry, which
holds L1. -/
theorem chronological_recall (texts : List String)
    (hne : texts ≠ []) (hall : ∀ t ∈ texts, t ≠ "") :
    stepOlderRun texts.length (recordAll texts emptySession) =
      (⟨texts.reverse, some (texts.length - 1)⟩,
        texts.reverse.map NavResult.deliverText) ∧
    texts.reverse.getD (texts.length - 1) "" = texts.getD 0 "" := by
  have h0 : recordAll texts emptySession = ⟨texts.reverse, none⟩ := by
    have := recordAll_cons_all texts [] hall
    simpa [emptySession] using this
  have hrne : texts.reverse ≠ [] := by
    simpa using hne
  have h1 := stepOlderRun_from_bottom texts.reverse hrne
  constructor
  · rw [h0]
    simpa [List.length_reverse] using h1
  · obtain ⟨t, ts⟩ := texts
    · exact absurd rfl hne
    · rw [List.getD_eq_getElem _ _ (by simp)]
      rw [List.getD_eq_getElem _ _ (by simp)]
      simp [List.getElem_reverse]

/-- C1 witness: recording "ls" then "pwd" and stepping older twice
delivers "pwd" then "ls", ending on the oldest entry "ls". -/
theorem chronological_recall_witness :
    (["ls", "pwd"] : List String) ≠ [] ∧
    stepOlderRun 2 (recordAll ["ls", "pwd"] emptySession) =
      (⟨["pwd", "ls"], some 1⟩,
        [NavResult.deliverText "pwd", NavResult.deliverText "ls"]) := by
  refine ⟨by decide, ?_⟩
  have h := (chronological_recall ["ls", "pwd"] (by decide) (by decide)).1
  simpa using h

end Ttyd
